import Mathlib

/-!
Verification of the SunflowerResell reseller-storefront bot (src/bot.js).

The repository's single source file contains two concatenated bot variants:

* Variant 1 (lines 1-516): owner-only ordering with a local JSON order log.
  It provides the free-text multi-item order parser (`parseAddCommand`,
  `prepareNameMatcher`), the pricing helper (`calcCostMMK`), the order-log
  appends of the `/add` handler, and `getLastNOrders` / `/orderinfo`.
* Variant 2 (lines 517-868): a balance-ledger bot with per-user balances,
  a `/recharge` conversation flow with admin confirmation, and a
  group-creator authority gate (`groupOwnerOnly`) over `/add`.

Strings are modelled as `List Char`; JS numbers used as money are modelled
as `ℚ` (the spec calls costs non-negative rationals); JS maps/objects are
modelled as functions into `Option`.
-/

namespace Sunflower

/-! ## JS string primitives used by the source -/

/-- Characters treated as whitespace by the JS `trim` / `\s` constructs
(ASCII fragment; the source only ever meets ASCII separators). -/
def jsSpace (c : Char) : Bool :=
  c = ' ' || c = '\t' || c = '\n' || c = '\r' || c = '\x0b' || c = '\x0c'

/-- Left part of JS `String.prototype.trim`. -/
def jsTrimL (s : List Char) : List Char := s.dropWhile jsSpace

/-- Right part of JS `String.prototype.trim`. -/
def jsTrimR (s : List Char) : List Char := (s.reverse.dropWhile jsSpace).reverse

/-- JS `String.prototype.trim`: drop whitespace from both ends. -/
def jsTrim (s : List Char) : List Char := jsTrimR (jsTrimL s)

/-- JS `haystack.indexOf(needle)`: index of the first occurrence of `pat`
as a contiguous substring of `s`, `none` when there is none (JS `-1`). -/
def strIndexOf? : List Char → List Char → Option Nat
  | [], pat => if pat.isPrefixOf [] then some 0 else none
  | c :: t, pat =>
    if pat.isPrefixOf (c :: t) then some 0
    else (strIndexOf? t pat).map (· + 1)

/-- The occurrence predicate the spec's parser description speaks about:
`pat` occurs in `s` as a literal substring starting at offset `i`. -/
def occursAt (pat s : List Char) (i : Nat) : Prop := pat <+: s.drop i

instance (pat s : List Char) (i : Nat) : Decidable (occursAt pat s i) := by
  unfold occursAt; infer_instance

theorem length_dropWhile_le (p : α → Bool) (l : List α) :
    (l.dropWhile p).length ≤ l.length := by
  induction l with
  | nil => simp [List.dropWhile]
  | cons a t ih =>
    by_cases h : p a
    · simp [List.dropWhile, h]; omega
    · simp [List.dropWhile, h]

theorem length_jsTrimL_le (s : List Char) : (jsTrimL s).length ≤ s.length :=
  length_dropWhile_le _ _

theorem length_jsTrimR_le (s : List Char) : (jsTrimR s).length ≤ s.length := by
  unfold jsTrimR
  rw [List.length_reverse]
  calc (s.reverse.dropWhile jsSpace).length ≤ s.reverse.length :=
        length_dropWhile_le _ _
    _ = s.length := List.length_reverse s

theorem length_jsTrim_le (s : List Char) : (jsTrim s).length ≤ s.length :=
  le_trans (length_jsTrimR_le _) (length_jsTrimL_le _)

theorem strIndexOf?_occursAt {s pat : List Char} {i : Nat}
    (h : strIndexOf? s pat = some i) : occursAt pat s i := by
  induction s generalizing i with
  | nil =>
    unfold strIndexOf? at h
    by_cases hp : pat.isPrefixOf ([] : List Char)
    · simp [hp] at h
      subst h
      exact (List.isPrefixOf_iff_prefix).mp hp
    · simp [hp] at h
  | cons c t ih =>
    unfold strIndexOf? at h
    by_cases hp : pat.isPrefixOf (c :: t)
    · simp [hp] at h
      subst h
      exact (List.isPrefixOf_iff_prefix).mp hp
    · simp [hp] at h
      obtain ⟨j, hj, rfl⟩ := h
      have := ih hj
      simpa [occursAt] using this

theorem strIndexOf?_minimal {s pat : List Char} {i : Nat}
    (h : strIndexOf? s pat = some i) : ∀ j < i, ¬ occursAt pat s j := by
  induction s generalizing i with
  | nil =>
    unfold strIndexOf? at h
    by_cases hp : pat.isPrefixOf ([] : List Char)
    · simp [hp] at h; subst h; omega
    · simp [hp] at h
  | cons c t ih =>
    unfold strIndexOf? at h
    by_cases hp : pat.isPrefixOf (c :: t)
    · simp [hp] at h; subst h; omega
    · simp [hp] at h
      obtain ⟨j', hj', rfl⟩ := h
      intro j hj hocc
      match j with
      | 0 =>
        exact hp ((List.isPrefixOf_iff_prefix).mpr (by simpa [occursAt] using hocc))
      | j + 1 =>
        exact ih hj' j (by omega) (by simpa [occursAt] using hocc)

theorem strIndexOf?_isSome_of_occursAt {s pat : List Char} {j : Nat}
    (h : occursAt pat s j) : (strIndexOf? s pat).isSome := by
  induction s generalizing j with
  | nil =>
    unfold strIndexOf?
    have : pat <+: ([] : List Char) := by
      simpa [occursAt] using h
    simp [(List.isPrefixOf_iff_prefix).mpr this]
  | cons c t ih =>
    unfold strIndexOf?
    by_cases hp : pat.isPrefixOf (c :: t)
    · simp [hp]
    · simp [hp]
      match j with
      | 0 =>
        exact absurd ((List.isPrefixOf_iff_prefix).mpr (by simpa [occursAt] using h)) hp
      | j + 1 =>
        have := ih (j := j) (by simpa [occursAt] using h)
        simpa [Option.isSome_map] using this

theorem strIndexOf?_le_of_occursAt {s pat : List Char} {i j : Nat}
    (h : strIndexOf? s pat = some i) (hocc : occursAt pat s j) : i ≤ j := by
  by_contra hlt
  exact strIndexOf?_minimal h j (by omega) hocc

/-! ## prepareNameMatcher (bot.js lines 146-150)

The source sorts the catalog keys by length, descending, so that the
longest name wins when several keys start matching at the same offset.
JS `Array.prototype.sort` with comparator `b.length - a.length` is a
stable sort; we embed it as an insertion sort that keeps earlier elements
first on equal lengths. -/

def insertByLen (x : List Char) : List (List Char) → List (List Char)
  | [] => [x]
  | y :: t => if x.length ≤ y.length then y :: insertByLen x t else x :: y :: t

/-- The matcher built in `parseAddCommand`: product keys sorted by length
descending. -/
def prepareNameMatcher (names : List (List Char)) : List (List Char) :=
  names.foldl (fun acc x => insertByLen x acc) []

/-- A matcher list sorted by length, descending. -/
def SortedByLenDesc (l : List (List Char)) : Prop :=
  l.Pairwise (fun a b => b.length ≤ a.length)

theorem mem_insertByLen {z x : List Char} {l : List (List Char)} :
    z ∈ insertByLen x l ↔ z = x ∨ z ∈ l := by
  induction l with
  | nil => simp [insertByLen]
  | cons y t ih =>
    by_cases h : x.length ≤ y.length
    · simp only [insertByLen, h, if_true, List.mem_cons, ih]
      tauto
    · simp only [insertByLen, h, if_false, List.mem_cons]

theorem sortedByLenDesc_insertByLen {x : List Char} {l : List (List Char)}
    (hl : SortedByLenDesc l) : SortedByLenDesc (insertByLen x l) := by
  induction l with
  | nil => simp [insertByLen, SortedByLenDesc]
  | cons y t ih =>
    rw [SortedByLenDesc, List.pairwise_cons] at hl
    obtain ⟨hy, ht⟩ := hl
    by_cases h : x.length ≤ y.length
    · rw [SortedByLenDesc]
      simp only [insertByLen, h, if_true, List.pairwise_cons]
      constructor
      · intro z hz
        rcases mem_insertByLen.mp hz with rfl | hz'
        · exact h
        · exact hy z hz'
      · exact ih ht
    · rw [SortedByLenDesc]
      simp only [insertByLen, h, if_false, List.pairwise_cons]
      refine ⟨?_, ?_, ht⟩
      · intro z hz
        rcases List.mem_cons.mp hz with rfl | hz'
        · omega
        · have := hy z hz'; omega
      · exact hy

theorem prepareNameMatcher_sorted (names : List (List Char)) :
    SortedByLenDesc (prepareNameMatcher names) := by
  suffices h : ∀ acc, SortedByLenDesc acc →
      SortedByLenDesc (names.foldl (fun acc x => insertByLen x acc) acc) by
    exact h [] (by simp [SortedByLenDesc])
  induction names with
  | nil => intro acc hacc; simpa using hacc
  | cons n t ih =>
    intro acc hacc
    exact ih _ (sortedByLenDesc_insertByLen hacc)

theorem mem_prepareNameMatcher {z : List Char} {names : List (List Char)} :
    z ∈ prepareNameMatcher names ↔ z ∈ names := by
  suffices h : ∀ acc, (z ∈ names.foldl (fun acc x => insertByLen x acc) acc ↔
      z ∈ acc ∨ z ∈ names) by
    simpa using h []
  induction names with
  | nil => intro acc; simp
  | cons n t ih =>
    intro acc
    rw [List.foldl_cons, ih]
    simp [mem_insertByLen]
    tauto

theorem prepareNameMatcher_eq_nil {names : List (List Char)} :
    prepareNameMatcher names = [] ↔ names = [] := by
  constructor
  · intro h
    cases names with
    | nil => rfl
    | cons n t =>
      exfalso
      have : n ∈ prepareNameMatcher (n :: t) := mem_prepareNameMatcher.mpr (by simp)
      rw [h] at this
      simp at this
  · rintro rfl; rfl

/-! ## The earliest-occurrence search inside parseAddCommand
(bot.js lines 192-201): a for-loop over the matcher keeping the match
with the strictly smallest index. -/

def findEarliestAux (remaining : List Char) :
    List (List Char) → Option (Nat × List Char) → Option (Nat × List Char)
  | [], best => best
  | nk :: t, best =>
    match strIndexOf? remaining nk with
    | none => findEarliestAux remaining t best
    | some idx =>
      match best with
      | none => findEarliestAux remaining t (some (idx, nk))
      | some (bidx, bnk) =>
        if idx < bidx then findEarliestAux remaining t (some (idx, nk))
        else findEarliestAux remaining t (some (bidx, bnk))

/-- The earliest match among all matcher keys (the source's `earliest`
record, `none` standing for `idx = Infinity, nameKey = null`). -/
def findEarliest (remaining : List Char) (matcher : List (List Char)) :
    Option (Nat × List Char) :=
  findEarliestAux remaining matcher none

theorem findEarliestAux_some_cases {remaining : List Char}
    {m : List (List Char)} {bidx i : Nat} {bnk k : List Char}
    (h : findEarliestAux remaining m (some (bidx, bnk)) = some (i, k)) :
    (i = bidx ∧ k = bnk) ∨
      (k ∈ m ∧ strIndexOf? remaining k = some i ∧ i < bidx) := by
  induction m generalizing bidx bnk with
  | nil =>
    simp [findEarliestAux] at h
    exact Or.inl ⟨h.1.symm, h.2.symm⟩
  | cons nk t ih =>
    rw [findEarliestAux] at h
    cases hidx : strIndexOf? remaining nk with
    | none =>
      rw [hidx] at h
      rcases ih h with h' | ⟨hk, hi, hlt⟩
      · exact Or.inl h'
      · exact Or.inr ⟨List.mem_cons_of_mem _ hk, hi, hlt⟩
    | some idx =>
      rw [hidx] at h
      by_cases hlt : idx < bidx
      · simp only [hlt, if_true] at h
        rcases ih h with ⟨rfl, rfl⟩ | ⟨hk, hi, hlt'⟩
        · exact Or.inr ⟨List.mem_cons_self _ _, hidx, hlt⟩
        · exact Or.inr ⟨List.mem_cons_of_mem _ hk, hi, by omega⟩
      · simp only [hlt, if_false] at h
        rcases ih h with h' | ⟨hk, hi, hlt'⟩
        · exact Or.inl h'
        · exact Or.inr ⟨List.mem_cons_of_mem _ hk, hi, hlt'⟩

theorem findEarliestAux_none_sound {remaining : List Char}
    {m : List (List Char)} {i : Nat} {k : List Char}
    (h : findEarliestAux remaining m none = some (i, k)) :
    k ∈ m ∧ strIndexOf? remaining k = some i := by
  induction m with
  | nil => simp [findEarliestAux] at h
  | cons nk t ih =>
    rw [findEarliestAux] at h
    cases hidx : strIndexOf? remaining nk with
    | none =>
      rw [hidx] at h
      obtain ⟨hk, hi⟩ := ih h
      exact ⟨List.mem_cons_of_mem _ hk, hi⟩
    | some idx =>
      rw [hidx] at h
      rcases findEarliestAux_some_cases h with ⟨rfl, rfl⟩ | ⟨hk, hi, _⟩
      · exact ⟨List.mem_cons_self _ _, hidx⟩
      · exact ⟨List.mem_cons_of_mem _ hk, hi⟩

theorem findEarliestAux_min {remaining : List Char} {m : List (List Char)}
    {best : Option (Nat × List Char)} {i : Nat} {k : List Char}
    (h : findEarliestAux remaining m best = some (i, k)) :
    ∀ k' ∈ m, ∀ j, strIndexOf? remaining k' = some j → i ≤ j := by
  induction m generalizing best with
  | nil => simp
  | cons nk t ih =>
    rw [findEarliestAux] at h
    intro k' hk' j hj
    rcases List.mem_cons.mp hk' with rfl | hk't
    · -- k' is the head: its index was examined in this iteration
      rw [hj] at h
      cases best with
      | none =>
        rcases findEarliestAux_some_cases h with ⟨rfl, _⟩ | ⟨_, _, hlt⟩
        · exact le_refl _
        · omega
      | some b =>
        obtain ⟨bidx, bnk⟩ := b
        by_cases hlt : j < bidx
        · simp only [hlt, if_true] at h
          rcases findEarliestAux_some_cases h with ⟨rfl, _⟩ | ⟨_, _, hlt'⟩
          · exact le_refl _
          · omega
        · simp only [hlt, if_false] at h
          rcases findEarliestAux_some_cases h with ⟨rfl, _⟩ | ⟨_, _, hlt'⟩
          · omega
          · omega
    · -- k' is in the tail: use the induction hypothesis
      cases hidx : strIndexOf? remaining nk with
      | none =>
        rw [hidx] at h
        exact ih h k' hk't j hj
      | some idx =>
        rw [hidx] at h
        cases best with
        | none => exact ih h k' hk't j hj
        | some b =>
          obtain ⟨bidx, bnk⟩ := b
          by_cases hlt : idx < bidx
          · simp only [hlt, if_true] at h
            exact ih h k' hk't j hj
          · simp only [hlt, if_false] at h
            exact ih h k' hk't j hj

theorem findEarliestAux_some_isSome {remaining : List Char}
    {m : List (List Char)} (b : Nat × List Char) :
    (findEarliestAux remaining m (some b)).isSome := by
  induction m generalizing b with
  | nil => simp [findEarliestAux]
  | cons nk t ih =>
    rw [findEarliestAux]
    obtain ⟨bidx, bnk⟩ := b
    cases hidx : strIndexOf? remaining nk with
    | none => exact ih _
    | some idx =>
      by_cases hlt : idx < bidx
      · simp only [hlt, if_true]; exact ih _
      · simp only [hlt, if_false]; exact ih _

theorem findEarliestAux_isSome_of_mem {remaining : List Char}
    {m : List (List Char)} {k : List Char} (hk : k ∈ m)
    (hidx : (strIndexOf? remaining k).isSome) :
    ∀ best, (findEarliestAux remaining m best).isSome := by
  induction m with
  | nil => simp at hk
  | cons nk t ih =>
    intro best
    rw [findEarliestAux]
    rcases List.mem_cons.mp hk with rfl | hkt
    · cases h : strIndexOf? remaining k with
      | none => rw [h] at hidx; simp at hidx
      | some idx =>
        cases best with
        | none => exact findEarliestAux_some_isSome _
        | some b =>
          obtain ⟨bidx, bnk⟩ := b
          by_cases hlt : idx < bidx
          · simp only [hlt, if_true]; exact findEarliestAux_some_isSome _
          · simp only [hlt, if_false]; exact findEarliestAux_some_isSome _
    · cases h : strIndexOf? remaining nk with
      | none => exact ih hkt best
      | some idx =>
        cases best with
        | none => exact findEarliestAux_some_isSome _
        | some b =>
          obtain ⟨bidx, bnk⟩ := b
          by_cases hlt : idx < bidx
          · simp only [hlt, if_true]; exact findEarliestAux_some_isSome _
          · simp only [hlt, if_false]; exact findEarliestAux_some_isSome _

theorem findEarliestAux_longest {remaining : List Char} {m : List (List Char)}
    {best : Option (Nat × List Char)} {i : Nat} {k : List Char}
    (hs : SortedByLenDesc m)
    (hb : ∀ bidx bnk, best = some (bidx, bnk) → ∀ k' ∈ m, k'.length ≤ bnk.length)
    (h : findEarliestAux remaining m best = some (i, k)) :
    ∀ k' ∈ m, strIndexOf? remaining k' = some i → k'.length ≤ k.length := by
  induction m generalizing best with
  | nil => simp
  | cons nk t ih =>
    rw [SortedByLenDesc, List.pairwise_cons] at hs
    obtain ⟨hnk, ht⟩ := hs
    rw [findEarliestAux] at h
    intro k' hk' hk'i
    cases hidx : strIndexOf? remaining nk with
    | none =>
      rw [hidx] at h
      rcases List.mem_cons.mp hk' with rfl | hk't
      · rw [hidx] at hk'i; exact absurd hk'i (by simp)
      · exact ih ht (fun bidx bnk hbe k'' hk'' =>
          hb bidx bnk hbe k'' (List.mem_cons_of_mem _ hk'')) h k' hk't hk'i
    | some idx =>
      rw [hidx] at h
      cases best with
      | none =>
        -- best becomes (idx, nk); every tail key is no longer than nk
        have hb' : ∀ bidx bnk, some (idx, nk) = some (bidx, bnk) →
            ∀ k'' ∈ t, k''.length ≤ bnk.length := by
          rintro bidx bnk heq k'' hk''
          injection heq with heq'
          injection heq' with h1 h2
          subst h2
          exact hnk k'' hk''
        rcases List.mem_cons.mp hk' with rfl | hk't
        · -- the head itself occurs at i, hence idx = i
          rw [hidx] at hk'i
          injection hk'i with hii
          subst hii
          rcases findEarliestAux_some_cases h with ⟨_, rfl⟩ | ⟨_, _, hlt⟩
          · exact le_refl _
          · omega
        · exact ih ht hb' h k' hk't hk'i
      | some b =>
        obtain ⟨bidx, bnk⟩ := b
        by_cases hlt : idx < bidx
        · simp only [hlt, if_true] at h
          have hb' : ∀ bidx' bnk', some (idx, nk) = some (bidx', bnk') →
              ∀ k'' ∈ t, k''.length ≤ bnk'.length := by
            rintro bidx' bnk' heq k'' hk''
            injection heq with heq'
            injection heq' with h1 h2
            subst h2
            exact hnk k'' hk''
          rcases List.mem_cons.mp hk' with rfl | hk't
          · rw [hidx] at hk'i
            injection hk'i with hii
            subst hii
            rcases findEarliestAux_some_cases h with ⟨_, rfl⟩ | ⟨_, _, hlt'⟩
            · exact le_refl _
            · omega
          · exact ih ht hb' h k' hk't hk'i
        · simp only [hlt, if_false] at h
          have hb' : ∀ bidx' bnk', some (bidx, bnk) = some (bidx', bnk') →
              ∀ k'' ∈ t, k''.length ≤ bnk'.length := by
            rintro bidx' bnk' heq k'' hk''
            injection heq with heq'
            injection heq' with h1 h2
            subst h2
            exact hb bidx bnk rfl k'' (List.mem_cons_of_mem _ hk'')
          rcases List.mem_cons.mp hk' with rfl | hk't
          · -- head occurs at i, so i = idx; but the kept best has i ≤ bidx ≤ idx,
            -- forcing the result to be the old best
            rw [hidx] at hk'i
            injection hk'i with hii
            subst hii
            rcases findEarliestAux_some_cases h with ⟨hie, rfl⟩ | ⟨_, _, hlt'⟩
            · subst hie
              exact hb _ _ rfl k' (List.mem_cons_self _ _)
            · omega
          · exact ih ht hb' h k' hk't hk'i

theorem findEarliestAux_none_iff {remaining : List Char} {m : List (List Char)} :
    findEarliestAux remaining m none = none ↔
      ∀ k ∈ m, strIndexOf? remaining k = none := by
  constructor
  · intro h k hk
    cases hidx : strIndexOf? remaining k with
    | none => rfl
    | some idx =>
      have := findEarliestAux_isSome_of_mem hk (by rw [hidx]; rfl) (none)
      rw [h] at this
      simp at this
  · intro h
    induction m with
    | nil => rfl
    | cons nk t ih =>
      rw [findEarliestAux]
      rw [h nk (List.mem_cons_self _ _)]
      exact ih (fun k hk => h k (List.mem_cons_of_mem _ hk))

/-! ## Quantity matching (bot.js line 225)

The source matches the regex `^(\d+)(\s+|$)` against the (already trimmed)
remaining text: a run of decimal digits that must be followed by
whitespace or the end of the string. The whole match (digits plus the
whitespace run) is consumed. -/

/-- JS `Number` on a string of decimal digits. -/
def natOfDigits (ds : List Char) : Nat :=
  ds.foldl (fun n c => n * 10 + (c.toNat - '0'.toNat)) 0

/-- The regex `^(\d+)(\s+|$)` applied to `s`: on success, the quantity and
the text after the consumed digits-plus-whitespace span. -/
def takeQty (s : List Char) : Option (Nat × List Char) :=
  let digits := s.takeWhile Char.isDigit
  let rest := s.dropWhile Char.isDigit
  if digits = [] then none
  else
    match rest with
    | [] => some (natOfDigits digits, [])
    | c :: _ =>
      if jsSpace c then some (natOfDigits digits, rest.dropWhile jsSpace)
      else none

theorem takeQty_length_lt {s r : List Char} {q : Nat}
    (h : takeQty s = some (q, r)) : r.length < s.length := by
  unfold takeQty at h
  by_cases hd : s.takeWhile Char.isDigit = []
  · simp [hd] at h
  · simp only [hd, if_false] at h
    have hlen :
        (s.takeWhile Char.isDigit).length + (s.dropWhile Char.isDigit).length
          = s.length := by
      rw [← List.length_append, List.takeWhile_append_dropWhile]
    have hdpos : 0 < (s.takeWhile Char.isDigit).length :=
      List.length_pos.mpr hd
    cases hrest : s.dropWhile Char.isDigit with
    | nil =>
      rw [hrest] at h
      simp at h
      obtain ⟨_, rfl⟩ := h
      simp only [hrest, List.length_nil] at hlen
      simp
      omega
    | cons c t =>
      rw [hrest] at h
      by_cases hc : jsSpace c
      · simp only [hc, if_true, Option.some_inj, Prod.mk.injEq] at h
        obtain ⟨_, hr⟩ := h
        subst hr
        have h1 : ((c :: t).dropWhile jsSpace).length ≤ (c :: t).length :=
          length_dropWhile_le _ _
        rw [hrest] at hlen
        omega
      · simp [hc] at h

/-! ## The scanning loop of parseAddCommand (bot.js lines 187-236)

The loop repeatedly: finds the earliest match of any catalog key in the
remaining case-folded text, cuts off the text before it, consumes the key,
requires a quantity, and records a line item. It stops when no key
matches, when the matched key is falsy (the check on
!earliest.nameKey, i.e. the empty string), or when no quantity follows
the key.

The source also reconstructs an original-cased display name from a cursor
into the pre-case-folded text; no claim refers to the display name, so the
embedded line item keeps only the catalog key and the quantity. -/

structure Item where
  nameKey : List Char
  qty : Nat
deriving DecidableEq

/-- One while-loop body per fuel unit. Each executed iteration consumes at
least one character of `rem` (a nonempty key plus a nonempty digit run),
so any fuel above `rem.length` is sufficient; `scanItems` supplies it and
`scanItemsFuel_congr` proves the fuel irrelevant. -/
def scanItemsFuel (matcher : List (List Char)) :
    Nat → List Char → List Item
  | 0, _ => []
  | fuel + 1, rem =>
    if jsTrim rem = [] then []
    else
      match findEarliest rem matcher with
      | none => []
      | some (i, k) =>
        if k = [] then []
        else
          -- slice off the text before the match, consume the key, trim
          match takeQty (jsTrim ((rem.drop i).drop k.length)) with
          | none => []
          | some (q, r) =>
            { nameKey := k, qty := q } :: scanItemsFuel matcher fuel (jsTrim r)

/-- The scanning while-loop of `parseAddCommand`. -/
def scanItems (matcher : List (List Char)) (rem : List Char) : List Item :=
  scanItemsFuel matcher (rem.length + 1) rem

theorem jsTrim_after_qty_lt {rem : List Char} {i : Nat} {k r : List Char}
    {q : Nat}
    (hq : takeQty (jsTrim ((rem.drop i).drop k.length)) = some (q, r)) :
    (jsTrim r).length < rem.length := by
  have h1 : (jsTrim r).length ≤ r.length := length_jsTrim_le _
  have h2 : r.length < (jsTrim ((rem.drop i).drop k.length)).length :=
    takeQty_length_lt hq
  have h3 : (jsTrim ((rem.drop i).drop k.length)).length ≤
      ((rem.drop i).drop k.length).length := length_jsTrim_le _
  have h4 : ((rem.drop i).drop k.length).length = rem.length - i - k.length := by
    simp only [List.length_drop]
  omega

theorem scanItemsFuel_congr (matcher : List (List Char)) :
    ∀ fuel fuel' rem, rem.length < fuel → rem.length < fuel' →
      scanItemsFuel matcher fuel rem = scanItemsFuel matcher fuel' rem := by
  intro fuel
  induction fuel with
  | zero => intro fuel' rem h; omega
  | succ f ih =>
    intro fuel' rem hf hf'
    cases fuel' with
    | zero => omega
    | succ f' =>
      simp only [scanItemsFuel]
      by_cases h1 : jsTrim rem = []
      · simp [h1]
      · simp only [h1, if_false]
        cases hfe : findEarliest rem matcher with
        | none => rfl
        | some p =>
          obtain ⟨i, k⟩ := p
          by_cases hk : k = []
          · simp [hk]
          · simp only [hk, if_false]
            cases hq : takeQty (jsTrim ((rem.drop i).drop k.length)) with
            | none => rfl
            | some pr =>
              obtain ⟨q, r⟩ := pr
              have hlt : (jsTrim r).length < rem.length :=
                jsTrim_after_qty_lt hq
              have heq := ih f' (jsTrim r) (by omega) (by omega)
              simp [heq]

theorem scanItems_step {matcher : List (List Char)} {rem : List Char}
    {i : Nat} {k : List Char}
    (h1 : jsTrim rem ≠ []) (h2 : findEarliest rem matcher = some (i, k))
    (h3 : k ≠ []) :
    scanItems matcher rem =
      (match takeQty (jsTrim ((rem.drop i).drop k.length)) with
        | none => []
        | some (q, r) =>
          { nameKey := k, qty := q } :: scanItems matcher (jsTrim r)) := by
  unfold scanItems
  rw [scanItemsFuel]
  simp only [h1, if_false, h2, h3]
  cases hq : takeQty (jsTrim ((rem.drop i).drop k.length)) with
  | none => rfl
  | some pr =>
    obtain ⟨q, r⟩ := pr
    have hlt : (jsTrim r).length < rem.length := jsTrim_after_qty_lt hq
    have heq := scanItemsFuel_congr matcher rem.length ((jsTrim r).length + 1)
      (jsTrim r) (by omega) (by omega)
    simp [heq]

theorem scanItems_stop_of_no_match {matcher : List (List Char)}
    {rem : List Char}
    (h2 : findEarliest rem matcher = none) :
    scanItems matcher rem = [] := by
  unfold scanItems
  rw [scanItemsFuel]
  by_cases h1 : jsTrim rem = []
  · simp [h1]
  · simp [h1, h2]

/-- Parse failures of `/add`, one constructor per distinct error message of
the source (lines 157, 162, 175, 239). The spec's `MissingArguments`
covers the first two. -/
inductive ParseError
  | missingArguments   -- 'Missing arguments. Usage: ...'
  | missingProductQty  -- 'Missing product/qty. Usage: ...'
  | emptyCatalog       -- 'No products imported. Use /post and /setprice first.'
  | noItemsParsed      -- 'Could not parse items. ...'
deriving DecidableEq

structure ParsedOrder where
  link : List Char
  items : List Item
deriving DecidableEq

deriving instance DecidableEq for Except

/-- The parser for `/add <link> <product name> <qty> ...` (bot.js lines
154-243). `argsText` is the command text after the leading `/add`
token (the source strips it with a regex before this logic runs). -/
def parseAddCommand (keys : List (List Char)) (argsText : List Char) :
    Except ParseError ParsedOrder :=
  let rest := jsTrim argsText
  if rest = [] then .error .missingArguments
  else
    match strIndexOf? rest [' '] with
    | none => .error .missingProductQty
    | some spaceIdx =>
      let link := jsTrim (rest.take spaceIdx)
      let after := jsTrim (rest.drop (spaceIdx + 1))
      let matcher := prepareNameMatcher keys
      if matcher = [] then .error .emptyCatalog
      else
        let remaining := after.map Char.toLower
        let items := scanItems matcher remaining
        if items = [] then .error .noItemsParsed
        else .ok { link := link, items := items }

/-! ## Spec-side characterization of the match selection

The spec (section 4.2, step 3a) describes each scanning step as: find the
earliest-starting occurrence of any catalog key as a literal substring of
the remaining text, preferring the longest key when several start at the
same offset. The next definition transcribes those words; the theorems
relate it to the code's `findEarliest` over the sorted matcher. -/

/-- Spec description: `k` is a catalog key occurring at offset `i`, no key
occurs strictly earlier, and no key occurring at `i` is longer. -/
def EarliestLongest (keys : List (List Char)) (rem : List Char)
    (i : Nat) (k : List Char) : Prop :=
  k ∈ keys ∧ occursAt k rem i ∧
    (∀ k' ∈ keys, ∀ j, occursAt k' rem j → i ≤ j) ∧
    (∀ k' ∈ keys, occursAt k' rem i → k'.length ≤ k.length)

theorem findEarliest_earliestLongest {keys : List (List Char)}
    {rem : List Char} {i : Nat} {k : List Char}
    (h : findEarliest rem (prepareNameMatcher keys) = some (i, k)) :
    EarliestLongest keys rem i k := by
  obtain ⟨hkm, hidx⟩ := findEarliestAux_none_sound h
  have hk : k ∈ keys := mem_prepareNameMatcher.mp hkm
  refine ⟨hk, strIndexOf?_occursAt hidx, ?_, ?_⟩
  · intro k' hk' j hocc
    obtain ⟨j0, hj0⟩ := Option.isSome_iff_exists.mp
      (strIndexOf?_isSome_of_occursAt hocc)
    have h1 : i ≤ j0 :=
      findEarliestAux_min h k' (mem_prepareNameMatcher.mpr hk') j0 hj0
    have h2 : j0 ≤ j := strIndexOf?_le_of_occursAt hj0 hocc
    omega
  · intro k' hk' hocc
    obtain ⟨j0, hj0⟩ := Option.isSome_iff_exists.mp
      (strIndexOf?_isSome_of_occursAt hocc)
    have h1 : i ≤ j0 :=
      findEarliestAux_min h k' (mem_prepareNameMatcher.mpr hk') j0 hj0
    have h2 : j0 ≤ i := strIndexOf?_le_of_occursAt hj0 hocc
    have hji : j0 = i := by omega
    subst hji
    exact findEarliestAux_longest (prepareNameMatcher_sorted keys)
      (by rintro _ _ ⟨⟩) h k' (mem_prepareNameMatcher.mpr hk') hj0

theorem findEarliest_of_earliestLongest {keys : List (List Char)}
    {rem : List Char} {i : Nat} {k : List Char}
    (h : EarliestLongest keys rem i k) :
    findEarliest rem (prepareNameMatcher keys) = some (i, k) := by
  obtain ⟨hk, hocc, hmin, hlong⟩ := h
  have hsome : (findEarliest rem (prepareNameMatcher keys)).isSome :=
    findEarliestAux_isSome_of_mem (mem_prepareNameMatcher.mpr hk)
      (strIndexOf?_isSome_of_occursAt hocc) none
  obtain ⟨⟨i', k'⟩, hres⟩ := Option.isSome_iff_exists.mp hsome
  have hchar := findEarliest_earliestLongest hres
  obtain ⟨hk', hocc', hmin', hlong'⟩ := hchar
  have hii : i' = i := by
    have h1 : i ≤ i' := hmin k' hk' i' hocc'
    have h2 : i' ≤ i := hmin' k hk i hocc
    omega
  subst hii
  have hlen : k'.length = k.length := by
    have h1 : k'.length ≤ k.length := hlong k' hk' hocc'
    have h2 : k.length ≤ k'.length := hlong' k hk hocc
    omega
  have hkk : k' = k := by
    have hp : k' <+: k :=
      List.prefix_of_prefix_length_le hocc' hocc (le_of_eq hlen)
    exact hp.eq_of_length hlen
  rw [hres, hkk]

/-- C2, counterexample. With catalog key `view` and order body `view 10x`,
the key `view` is the earliest-longest match at offset 0 and a run of
decimal digits (`10`) immediately follows it after whitespace, yet the
scanning loop records no line item: the code additionally requires the
digit run to be terminated by whitespace or end of input (the regex is
`^(\d+)(\s+|$)`), so it stops and discards the digits instead of
recording the quantity 10, refuting the claim that a following run of
decimal digits is always accepted as the quantity. -/
theorem scan_digit_boundary_counterexample :
    EarliestLongest ["view".toList] ("view 10x".toList) 0 ("view".toList) ∧
    (jsTrim ((("view 10x".toList).drop 0).drop
        ("view".toList).length)).takeWhile Char.isDigit = "10".toList ∧
    scanItems (prepareNameMatcher ["view".toList]) ("view 10x".toList) = [] :=
  ⟨⟨by decide, by decide, fun _ _ j _ => Nat.zero_le j, by decide⟩,
    by decide, by decide⟩

/-- C2 (amended): at each step of the order parser's scanning loop, when
the remaining case-folded text is nonempty and `k` is a nonempty catalog
key whose occurrence at offset `i` is the earliest-starting one among all
catalog keys (the longest such key on equal start offsets), the loop
selects exactly that match, discards the text before it, consumes the
key, and then requires a run of decimal digits terminated by whitespace
or end of input as the quantity; if no such quantity follows, scanning
stops and the trailing text is discarded without recording an item,
otherwise the line item `(k, quantity)` is recorded and scanning
continues after the consumed span. -/
theorem scan_earliest_longest_step (keys : List (List Char))
    (rem : List Char) (i : Nat) (k : List Char)
    (hne : jsTrim rem ≠ []) (hk : k ≠ [])
    (hel : EarliestLongest keys rem i k) :
    findEarliest rem (prepareNameMatcher keys) = some (i, k) ∧
    scanItems (prepareNameMatcher keys) rem =
      (match takeQty (jsTrim ((rem.drop i).drop k.length)) with
        | none => []
        | some (q, r) =>
          { nameKey := k, qty := q } ::
            scanItems (prepareNameMatcher keys) (jsTrim r)) := by
  have hfe := findEarliest_of_earliestLongest hel
  exact ⟨hfe, scanItems_step hne hfe hk⟩

/-- C2, witness: the amended step theorem applied to the catalog
`[ab, b]` and remaining text `ab 12`: both keys occur at offset 0, the
longer key `ab` wins, and the item `(ab, 12)` is recorded. -/
theorem scan_earliest_longest_step_witness :
    findEarliest ("ab 12".toList) (prepareNameMatcher ["ab".toList, "b".toList])
        = some (0, "ab".toList) ∧
    scanItems (prepareNameMatcher ["ab".toList, "b".toList]) ("ab 12".toList) =
      (match takeQty (jsTrim ((("ab 12".toList).drop 0).drop
          ("ab".toList).length)) with
        | none => []
        | some (q, r) =>
          { nameKey := "ab".toList, qty := q } ::
            scanItems (prepareNameMatcher ["ab".toList, "b".toList])
              (jsTrim r)) :=
  scan_earliest_longest_step ["ab".toList, "b".toList] ("ab 12".toList) 0
    ("ab".toList) (by decide) (by decide)
    ⟨by decide, by decide, fun _ _ j _ => Nat.zero_le j, by decide⟩

/-! ## C9: the parser failure cases -/

theorem strIndexOf?_space_eq_none {s : List Char}
    (h : ∀ c ∈ s, jsSpace c = false) : strIndexOf? s [' '] = none := by
  cases hidx : strIndexOf? s [' '] with
  | none => rfl
  | some i =>
    exfalso
    have hocc := strIndexOf?_occursAt hidx
    have hmem : ' ' ∈ s.drop i := hocc.subset (by simp)
    have : jsSpace ' ' = false := h ' ' (List.mem_of_mem_drop hmem)
    simp [jsSpace] at this

set_option maxHeartbeats 1000000 in
theorem parseAddCommand_ok_items_ne_nil {keys : List (List Char)}
    {argsText : List Char} {po : ParsedOrder}
    (h : parseAddCommand keys argsText = .ok po) : po.items ≠ [] := by
  simp only [parseAddCommand] at h
  by_cases h1 : jsTrim argsText = []
  · simp [h1] at h
  · simp only [h1, if_false] at h
    cases hidx : strIndexOf? (jsTrim argsText) [' '] with
    | none => rw [hidx] at h; cases h
    | some spaceIdx =>
      rw [hidx] at h
      by_cases h2 : prepareNameMatcher keys = []
      · simp [h2] at h
      · simp only [h2, if_false] at h
        by_cases h3 : scanItems (prepareNameMatcher keys)
            ((jsTrim ((jsTrim argsText).drop (spaceIdx + 1))).map Char.toLower)
              = []
        · simp [h3] at h
        · simp only [h3, if_false, Except.ok.injEq] at h
          subst h
          exact h3

/-- C9: the order parser fails with a missing-arguments error when the
body has no remainder after the destination token (the trimmed body
contains no whitespace at all, so it is a single whitespace-delimited
token and `indexOf(' ')` finds nothing), fails with the empty-catalog
error when no catalog keys exist, fails with the no-items error when the
scanning loop recovered zero line items, and in every case returns
either an error (carrying no items) or a parsed order with a nonempty
item list. -/
theorem parseAddCommand_failure_cases :
    (∀ keys argsText, jsTrim argsText ≠ [] →
      (∀ c ∈ jsTrim argsText, jsSpace c = false) →
      parseAddCommand keys argsText = .error .missingProductQty) ∧
    (∀ argsText spaceIdx, jsTrim argsText ≠ [] →
      strIndexOf? (jsTrim argsText) [' '] = some spaceIdx →
      parseAddCommand [] argsText = .error .emptyCatalog) ∧
    (∀ keys argsText spaceIdx, jsTrim argsText ≠ [] →
      strIndexOf? (jsTrim argsText) [' '] = some spaceIdx →
      keys ≠ [] →
      scanItems (prepareNameMatcher keys)
        ((jsTrim ((jsTrim argsText).drop (spaceIdx + 1))).map Char.toLower)
          = [] →
      parseAddCommand keys argsText = .error .noItemsParsed) ∧
    (∀ keys argsText,
      (∃ e, parseAddCommand keys argsText = .error e) ∨
      (∃ po, parseAddCommand keys argsText = .ok po ∧ po.items ≠ [])) := by
  refine ⟨?_, ?_, ?_, ?_⟩
  · intro keys argsText h1 h2
    have hidx := strIndexOf?_space_eq_none h2
    unfold parseAddCommand
    simp [h1, hidx]
  · intro argsText spaceIdx h1 hidx
    unfold parseAddCommand
    simp [h1, hidx, prepareNameMatcher]
  · intro keys argsText spaceIdx h1 hidx hkeys hscan
    have hm : prepareNameMatcher keys ≠ [] := by
      intro hc
      exact hkeys (prepareNameMatcher_eq_nil.mp hc)
    unfold parseAddCommand
    simp [h1, hidx, hm, hscan]
  · intro keys argsText
    cases hpo : parseAddCommand keys argsText with
    | error e => exact Or.inl ⟨e, rfl⟩
    | ok po => exact Or.inr ⟨po, rfl, parseAddCommand_ok_items_ne_nil hpo⟩

/-- C9, witness: the three failure cases at concrete inputs. -/
theorem parseAddCommand_failure_cases_witness :
    parseAddCommand ["view".toList] ("link".toList)
        = .error .missingProductQty ∧
    parseAddCommand [] ("link view 5".toList) = .error .emptyCatalog ∧
    parseAddCommand ["view".toList] ("link zzz".toList)
        = .error .noItemsParsed :=
  ⟨parseAddCommand_failure_cases.1 ["view".toList] ("link".toList)
      (by decide) (by decide),
    parseAddCommand_failure_cases.2.1 ("link view 5".toList) 4
      (by decide) (by decide),
    parseAddCommand_failure_cases.2.2.1 ["view".toList] ("link zzz".toList) 4
      (by decide) (by decide) (by decide) (by decide)⟩

/-! ## Pricing and the order log of variant 1 (bot.js lines 141-143 and
417-504)

Money amounts are JS numbers in the source; the spec calls costs
non-negative rationals, so they are embedded as `ℚ`. A product row of
`DB.products`: the external service id (the empty string when unset, the
default written by `/post` and `/setprice`) and the MMK price per 1000
units (0 when unset). -/

structure Product where
  id : List Char
  price_mmk_per_1k : ℚ
deriving DecidableEq

/-- The catalog `DB.products`, keyed by lower-cased product name. -/
def Catalog := List Char → Option Product

/-- Cost computation (bot.js lines 141-143):
`(Number(pricePer1k) / 1000) * Number(qty)`. -/
def calcCostMMK (pricePer1k : ℚ) (qty : ℚ) : ℚ := pricePer1k / 1000 * qty

/-- A stored order record (an element of `DB.orders`). The source stores
the display name; the embedding stores the catalog key (see `Item`).
`id = none` models the stored `undefined` of a failed placement. -/
structure OrderRec where
  id : Option Nat
  name : List Char
  qty : Nat
  cost_mmk : ℚ
  link : List Char
  ts : Nat
deriving DecidableEq

/-- One iteration of the `/add` fulfillment loop (bot.js lines 435-494):
the record pushed onto `DB.orders` for a line item. `fulfill` is the
outcome of the external `callAPI add` call for this item (`none` when
the call threw or returned no order id); a missing catalog row or an
unset external id skips the call and stores a failed record with cost
0. -/
def processItem (products : Catalog) (fulfill : Option Nat)
    (link : List Char) (ts : Nat) (it : Item) : OrderRec :=
  match products it.nameKey with
  | none =>
    { id := none, name := it.nameKey, qty := it.qty, cost_mmk := 0,
      link := link, ts := ts }
  | some prod =>
    if prod.id = [] then
      { id := none, name := it.nameKey, qty := it.qty, cost_mmk := 0,
        link := link, ts := ts }
    else
      let pricePer1k := prod.price_mmk_per_1k
      let itemCost := if pricePer1k > 0 then calcCostMMK pricePer1k it.qty else 0
      { id := fulfill, name := it.nameKey, qty := it.qty, cost_mmk := itemCost,
        link := link, ts := ts }

/-- The whole `/add` fulfillment loop over the parsed items, appending one
record per item onto the order log. `fulfill n` is the outcome of the
external call for the item at position `n`. -/
def processItems (products : Catalog) (fulfill : Nat → Option Nat)
    (link : List Char) (ts : Nat) :
    List Item → Nat → List OrderRec → List OrderRec
  | [], _, orders => orders
  | it :: rest, n, orders =>
    processItems products fulfill link ts rest (n + 1)
      (orders ++ [processItem products (fulfill n) link ts it])

/-- C6: the quoted cost equals `unitPricePer1000 * quantity / 1000` and is
non-negative for non-negative price and quantity; a product whose price
is unset (0) yields a recorded cost of 0 for any quantity; and ordering a
product whose external identifier is unset records an order with no
remote id instead of rejecting the item. -/
theorem quote_cost_properties :
    (∀ p q : ℚ, calcCostMMK p q = p * q / 1000) ∧
    (∀ p q : ℚ, 0 ≤ p → 0 ≤ q → 0 ≤ calcCostMMK p q) ∧
    (∀ (products : Catalog) (f : Option Nat) (link : List Char) (ts : Nat)
        (it : Item) (prod : Product), products it.nameKey = some prod →
      prod.price_mmk_per_1k = 0 →
      (processItem products f link ts it).cost_mmk = 0) ∧
    (∀ (products : Catalog) (f : Option Nat) (link : List Char) (ts : Nat)
        (it : Item) (prod : Product), products it.nameKey = some prod →
      prod.id = [] →
      (processItem products f link ts it).id = none) := by
  refine ⟨?_, ?_, ?_, ?_⟩
  · intro p q
    unfold calcCostMMK
    ring
  · intro p q hp hq
    unfold calcCostMMK
    positivity
  · intro products f link ts it prod hlook hprice
    unfold processItem
    rw [hlook]
    by_cases hid : prod.id = []
    · simp [hid]
    · simp [hid, hprice]
  · intro products f link ts it prod hlook hid
    unfold processItem
    rw [hlook]
    simp [hid]

/-- C6, witness: a one-product catalog whose product has price 0 and an
unset external id, ordered at quantity 7. -/
theorem quote_cost_properties_witness :
    calcCostMMK 2500 4 = 2500 * 4 / 1000 ∧
    0 ≤ calcCostMMK 2500 4 ∧
    (processItem
        (fun k => if k = "view".toList then
          some { id := [], price_mmk_per_1k := 0 } else none)
        (some 9) ("http://x.test".toList) 0
        { nameKey := "view".toList, qty := 7 }).cost_mmk = 0 ∧
    (processItem
        (fun k => if k = "view".toList then
          some { id := [], price_mmk_per_1k := 0 } else none)
        (some 9) ("http://x.test".toList) 0
        { nameKey := "view".toList, qty := 7 }).id = none :=
  ⟨quote_cost_properties.1 2500 4,
    quote_cost_properties.2.1 2500 4 (by norm_num) (by norm_num),
    quote_cost_properties.2.2.1 _ (some 9) _ 0
      { nameKey := "view".toList, qty := 7 }
      { id := [], price_mmk_per_1k := 0 } (by simp) rfl,
    quote_cost_properties.2.2.2 _ (some 9) _ 0
      { nameKey := "view".toList, qty := 7 }
      { id := [], price_mmk_per_1k := 0 } (by simp) rfl⟩

/-- C8: the `/add` loop appends exactly one order record per parsed line
item — whatever the fulfillment outcomes were, including failures — and
the records already in the log are preserved unchanged as a prefix, so
existing records are never modified. -/
theorem order_log_one_record_per_item (products : Catalog)
    (fulfill : Nat → Option Nat) (link : List Char) (ts : Nat)
    (items : List Item) (n : Nat) (orders : List OrderRec) :
    (processItems products fulfill link ts items n orders).length
        = orders.length + items.length ∧
    orders <+: processItems products fulfill link ts items n orders := by
  induction items generalizing n orders with
  | nil => simp [processItems]
  | cons it rest ih =>
    obtain ⟨hlen, hpre⟩ :=
      ih (n + 1) (orders ++ [processItem products (fulfill n) link ts it])
    constructor
    · rw [processItems, hlen]
      simp
      omega
    · rw [processItems]
      exact (List.prefix_append orders _).trans hpre

/-! ## getLastNOrders (bot.js lines 134-138)

`const N = Math.max(1, Math.min(100, Number(n) || 1));
 return DB.orders.slice(-N).reverse();`

The argument is modelled as `Option Int`: `none` is a non-numeric input
(JS `Number(n)` gives `NaN`, and `NaN || 1` is `1`); `some 0` also falls
back to 1 because `0 || 1` is `1`. `slice(-N)` with `N ≥ 1` keeps the
last `min(N, length)` elements. -/

def getLastNOrders (n : Option Int) (orders : List OrderRec) :
    List OrderRec :=
  let v : Int :=
    match n with
    | none => 1
    | some m => if m = 0 then 1 else m
  let N : Int := max 1 (min 100 v)
  (orders.drop (orders.length - N.toNat)).reverse

/-- The count the claim describes: `min(max(1, n), 100)`, with a
non-numeric count treated as 1. -/
def claimedCount (n : Option Int) : Nat :=
  match n with
  | none => 1
  | some m => (min (max 1 m) 100).toNat

/-- C10: the order-status inquiry returns the last `min(max(1, n), 100)`
stored order records (all of them when fewer exist), newest first — the
reverse of a final segment of the order log — and a non-numeric count is
treated as 1. -/
theorem getLastNOrders_spec (n : Option Int) (orders : List OrderRec) :
    getLastNOrders n orders = orders.reverse.take (claimedCount n) := by
  unfold getLastNOrders claimedCount
  have key : ∀ N : Nat, (orders.drop (orders.length - N)).reverse
      = orders.reverse.take N := by
    intro N
    rw [List.reverse_drop]
    by_cases h : N ≤ orders.length
    · have : orders.length - (orders.length - N) = N := by omega
      rw [this]
    · have h1 : orders.length - (orders.length - N) = orders.length := by omega
      rw [h1]
      rw [List.take_of_length_le (by simp), List.take_of_length_le (by simp; omega)]
  cases n with
  | none => simpa using key 1
  | some m =>
    by_cases hm : m = 0
    · subst hm
      simpa using key 1
    · simp only [hm, if_false]
      have harith : (max 1 (min 100 m)).toNat = (min (max 1 m) 100).toNat := by
        omega
      rw [← harith]
      exact key _

/-! ## Variant 2 (bot.js lines 517-868): the balance-ledger bot

Its `/add` handler (lines 705-755) parses `(name, qty)` pairs and then,
for each one: skips unknown services, skips non-whitelisted services for
non-owner callers, accumulates the cost into the receipt total, and — for
non-owner callers — checks the caller's remaining balance against the
item cost, skipping the item when insufficient and otherwise deducting
the cost and issuing the fulfillment call. -/

structure Service where
  service_id : List Char
  price_mmk : ℚ
deriving DecidableEq

/-- A `(name, qty)` pair parsed by variant 2's `/add`. -/
structure OrderReq where
  name : List Char
  qty : Nat
deriving DecidableEq

/-- The state threaded through the `/add` loop: the requesting party's
ledger balance (`db.users[from].balance`, 0 when the row is created
lazily), the fulfillment calls issued so far, and the running receipt
total `totalCost`. -/
structure AddState where
  balance : ℚ
  calls : List OrderReq
  totalCost : ℚ
deriving DecidableEq

/-- One iteration of the `/add` order loop (bot.js lines 725-751). -/
def addStep (services : List Char → Option Service)
    (whitelist : List (List Char)) (isOwner : Bool)
    (st : AddState) (o : OrderReq) : AddState :=
  match services o.name with
  | none => st
  | some svc =>
    if !(whitelist.contains o.name) && !isOwner then st
    else
      let cost := svc.price_mmk * (o.qty : ℚ) / 1000
      let st1 : AddState := { st with totalCost := st.totalCost + cost }
      if isOwner then { st1 with calls := st1.calls ++ [o] }
      else if st.balance < cost then st1
      else
        { st1 with balance := st.balance - cost, calls := st1.calls ++ [o] }

/-- The `/add` order loop over all parsed items. -/
def processAdd (services : List Char → Option Service)
    (whitelist : List (List Char)) (isOwner : Bool)
    (items : List OrderReq) (st : AddState) : AddState :=
  items.foldl (addStep services whitelist isOwner) st

/-- The quote of a single line item: `price_mmk * qty / 1000` (0 for an
unknown service, which contributes nothing). -/
def itemCostOf (services : List Char → Option Service) (o : OrderReq) : ℚ :=
  match services o.name with
  | some svc => svc.price_mmk * (o.qty : ℚ) / 1000
  | none => 0

/-- The total cost of a request, the sum of its line-item quotes. -/
def totalCostOf (services : List Char → Option Service)
    (items : List OrderReq) : ℚ :=
  (items.map (itemCostOf services)).sum

/-- A one-service catalog used by concrete ledger scenarios: service `a`
priced 1000 MMK per 1000 units, so a quantity of 600 costs 600. -/
def demoServices : List Char → Option Service := fun n =>
  if n = "a".toList then
    some { service_id := "1".toList, price_mmk := 1000 } else none

/-- Two line items of 600 units each (600 MMK each, 1200 MMK total). -/
def demoItems : List OrderReq :=
  [{ name := "a".toList, qty := 600 }, { name := "a".toList, qty := 600 }]

/-- C1, counterexample. A non-operator party with balance 1000 orders two
line items costing 600 each: the total cost 1200 exceeds the balance,
yet the request is not rejected as a whole — the first item is deducted
and dispatched (final balance 400, one fulfillment call), refuting the
all-or-nothing check against the total. -/
theorem insufficient_total_partial_spend_counterexample :
    totalCostOf demoServices demoItems > 1000 ∧
    (processAdd demoServices ["a".toList] false demoItems
      { balance := 1000, calls := [], totalCost := 0 }).balance = 400 ∧
    (processAdd demoServices ["a".toList] false demoItems
      { balance := 1000, calls := [], totalCost := 0 }).balance ≠ 1000 ∧
    (processAdd demoServices ["a".toList] false demoItems
      { balance := 1000, calls := [], totalCost := 0 }).calls ≠ [] := by
  norm_num [demoServices, demoItems, totalCostOf, itemCostOf, processAdd,
    addStep]

theorem addStep_char_unknown {services : List Char → Option Service}
    {wl : List (List Char)} {o : OrderReq} (hs : services o.name = none)
    (b : Bool) (st : AddState) : addStep services wl b st o = st := by
  simp only [addStep, hs]

theorem addStep_char_unlisted {services : List Char → Option Service}
    {wl : List (List Char)} {o : OrderReq} {svc : Service}
    (hs : services o.name = some svc) (hw : wl.contains o.name = false)
    (st : AddState) : addStep services wl false st o = st := by
  simp only [addStep, hs]
  rw [if_pos (show (!wl.contains o.name && !false) = true by rw [hw]; rfl)]

theorem addStep_char_insufficient {services : List Char → Option Service}
    {wl : List (List Char)} {o : OrderReq} {svc : Service}
    (hs : services o.name = some svc) (hw : wl.contains o.name = true)
    (st : AddState)
    (hlt : st.balance < svc.price_mmk * (o.qty : ℚ) / 1000) :
    addStep services wl false st o
      = { st with
          totalCost := st.totalCost + svc.price_mmk * (o.qty : ℚ) / 1000 } := by
  simp only [addStep, hs]
  rw [if_neg (show ¬ (!wl.contains o.name && !false) = true by
    rw [hw]; simp)]
  rw [if_neg Bool.false_ne_true]
  rw [if_pos hlt]

theorem addStep_char_afford {services : List Char → Option Service}
    {wl : List (List Char)} {o : OrderReq} {svc : Service}
    (hs : services o.name = some svc) (hw : wl.contains o.name = true)
    (st : AddState)
    (hge : ¬ st.balance < svc.price_mmk * (o.qty : ℚ) / 1000) :
    addStep services wl false st o
      = { balance := st.balance - svc.price_mmk * (o.qty : ℚ) / 1000,
          calls := st.calls ++ [o],
          totalCost := st.totalCost + svc.price_mmk * (o.qty : ℚ) / 1000 } := by
  simp only [addStep, hs]
  rw [if_neg (show ¬ (!wl.contains o.name && !false) = true by
    rw [hw]; simp)]
  rw [if_neg Bool.false_ne_true]
  rw [if_neg hge]

theorem addStep_balance_nonneg (services : List Char → Option Service)
    (wl : List (List Char)) (st : AddState) (o : OrderReq)
    (hb : 0 ≤ st.balance) : 0 ≤ (addStep services wl false st o).balance := by
  cases hs : services o.name with
  | none => rw [addStep_char_unknown hs]; exact hb
  | some svc =>
    cases hw : wl.contains o.name with
    | false => rw [addStep_char_unlisted hs hw]; exact hb
    | true =>
      by_cases hlt : st.balance < svc.price_mmk * (o.qty : ℚ) / 1000
      · rw [addStep_char_insufficient hs hw st hlt]; exact hb
      · rw [addStep_char_afford hs hw st hlt]
        simp only [not_lt] at hlt
        simp only []
        linarith

/-- C1 (amended): for a non-operator request the balance-sufficiency
check is applied per line item against the party's remaining balance,
not once against the request total: a line item whose cost exceeds the
remaining balance is skipped — no deduction and no fulfillment call for
that item, though its cost still enters the displayed total — while an
individually affordable item is deducted and dispatched; consequently
the balance never becomes negative, but a request whose total cost
exceeds the balance may be partially executed. -/
theorem add_balance_check_per_item (services : List Char → Option Service)
    (wl : List (List Char)) (st : AddState) (o : OrderReq) (svc : Service)
    (hs : services o.name = some svc)
    (hw : wl.contains o.name = true) :
    (st.balance < svc.price_mmk * (o.qty : ℚ) / 1000 →
      addStep services wl false st o
        = { st with
            totalCost := st.totalCost + svc.price_mmk * (o.qty : ℚ) / 1000 }) ∧
    (¬ st.balance < svc.price_mmk * (o.qty : ℚ) / 1000 →
      addStep services wl false st o
        = { balance := st.balance - svc.price_mmk * (o.qty : ℚ) / 1000,
            calls := st.calls ++ [o],
            totalCost := st.totalCost + svc.price_mmk * (o.qty : ℚ) / 1000 }) ∧
    (∀ (items : List OrderReq) (st' : AddState), 0 ≤ st'.balance →
      0 ≤ (processAdd services wl false items st').balance) := by
  refine ⟨fun hlt => addStep_char_insufficient hs hw st hlt,
    fun hge => addStep_char_afford hs hw st hge, ?_⟩
  intro items
  induction items with
  | nil => intro st' hb; simpa [processAdd] using hb
  | cons o' rest ih =>
    intro st' hb
    have h1 : processAdd services wl false (o' :: rest) st'
        = processAdd services wl false rest
            (addStep services wl false st' o') := rfl
    rw [h1]
    exact ih _ (addStep_balance_nonneg services wl st' o' hb)

/-- C1, witness: applying the per-item characterization and the
non-negativity invariant at a concrete unaffordable single item. -/
theorem add_balance_check_per_item_witness :
    addStep demoServices ["a".toList] false
        { balance := 100, calls := [], totalCost := 0 }
        { name := "a".toList, qty := 600 }
      = { balance := 100, calls := [],
          totalCost := 0 + 1000 * ((600 : Nat) : ℚ) / 1000 } ∧
    (0 : ℚ) ≤ (processAdd demoServices ["a".toList] false
        [{ name := "a".toList, qty := 600 }]
        { balance := 100, calls := [], totalCost := 0 }).balance :=
  ⟨(add_balance_check_per_item demoServices ["a".toList]
      { balance := 100, calls := [], totalCost := 0 }
      { name := "a".toList, qty := 600 }
      { service_id := "1".toList, price_mmk := 1000 }
      rfl rfl).1 (by norm_num),
    (add_balance_check_per_item demoServices ["a".toList]
      { balance := 100, calls := [], totalCost := 0 }
      { name := "a".toList, qty := 600 }
      { service_id := "1".toList, price_mmk := 1000 }
      rfl rfl).2.2
      [{ name := "a".toList, qty := 600 }]
      { balance := 100, calls := [], totalCost := 0 } (by norm_num)⟩

theorem processAdd_exact_spend (services : List Char → Option Service)
    (wl : List (List Char)) :
    ∀ (items : List OrderReq) (st : AddState),
      (∀ o ∈ items, (services o.name).isSome ∧ wl.contains o.name = true) →
      (∀ o ∈ items, 0 ≤ itemCostOf services o) →
      st.balance = totalCostOf services items →
      processAdd services wl false items st
        = { balance := 0, calls := st.calls ++ items,
            totalCost := st.totalCost + totalCostOf services items } := by
  intro items
  induction items with
  | nil =>
    intro st _ _ hb
    simp only [totalCostOf, List.map_nil, List.sum_nil] at hb
    obtain ⟨b, c, t⟩ := st
    simp only [processAdd, List.foldl_nil]
    simp only [totalCostOf, List.map_nil, List.sum_nil]
    simp at hb ⊢
    exact hb
  | cons o rest ih =>
    intro st hknown hpos hb
    obtain ⟨hso, hwo⟩ := hknown o (List.mem_cons_self _ _)
    obtain ⟨svc, hsvc⟩ := Option.isSome_iff_exists.mp hso
    have hcost : itemCostOf services o = svc.price_mmk * (o.qty : ℚ) / 1000 := by
      unfold itemCostOf
      rw [hsvc]
    have htot : totalCostOf services (o :: rest)
        = itemCostOf services o + totalCostOf services rest := by
      unfold totalCostOf
      simp
    have hrest_nonneg : 0 ≤ totalCostOf services rest := by
      unfold totalCostOf
      apply List.sum_nonneg
      intro x hx
      obtain ⟨o', ho', rfl⟩ := List.mem_map.mp hx
      exact hpos o' (List.mem_cons_of_mem _ ho')
    have hull : ¬ st.balance < svc.price_mmk * (o.qty : ℚ) / 1000 := by
      rw [hb, htot, hcost]
      intro hlt
      linarith
    have hstep := addStep_char_afford hsvc hwo st hull
    have h1 : processAdd services wl false (o :: rest) st
        = processAdd services wl false rest (addStep services wl false st o) :=
      rfl
    rw [h1, hstep]
    rw [ih _ (fun o' ho' => hknown o' (List.mem_cons_of_mem _ ho'))
      (fun o' ho' => hpos o' (List.mem_cons_of_mem _ ho'))
      (by simp only []; rw [hb, htot, hcost]; ring)]
    simp only [htot, hcost]
    congr 1
    · simp
    · ring

/-- C5: for a non-operator request whose line items are all known and
whitelisted services with non-negative quotes, when the total cost
exactly equals the party's balance the request fully succeeds — every
line item is dispatched, in order — and the resulting balance is exactly
0. -/
theorem total_equal_balance_spends_to_zero
    (services : List Char → Option Service) (wl : List (List Char))
    (items : List OrderReq) (b : ℚ)
    (h1 : ∀ o ∈ items, (services o.name).isSome ∧ wl.contains o.name = true)
    (h2 : ∀ o ∈ items, 0 ≤ itemCostOf services o)
    (h3 : totalCostOf services items = b) :
    (processAdd services wl false items
      { balance := b, calls := [], totalCost := 0 }).balance = 0 ∧
    (processAdd services wl false items
      { balance := b, calls := [], totalCost := 0 }).calls = items := by
  rw [processAdd_exact_spend services wl items
    { balance := b, calls := [], totalCost := 0 } h1 h2 (by simpa using h3.symm)]
  simp

/-- C5, witness: two items costing 600 each against a balance of exactly
1200: both are dispatched and the balance ends at 0. -/
theorem total_equal_balance_spends_to_zero_witness :
    (processAdd demoServices ["a".toList] false demoItems
      { balance := 1200, calls := [], totalCost := 0 }).balance = 0 ∧
    (processAdd demoServices ["a".toList] false demoItems
      { balance := 1200, calls := [], totalCost := 0 }).calls = demoItems :=
  total_equal_balance_spends_to_zero demoServices ["a".toList] demoItems 1200
    (by
      intro o ho
      simp only [demoItems, List.mem_cons, List.not_mem_nil, or_false] at ho
      rcases ho with rfl | rfl <;> exact ⟨rfl, rfl⟩)
    (by
      intro o ho
      simp only [demoItems, List.mem_cons, List.not_mem_nil, or_false] at ho
      rcases ho with rfl | rfl <;> norm_num [itemCostOf, demoServices])
    (by norm_num [totalCostOf, itemCostOf, demoServices, demoItems])

/-! ## Recharge confirm/reject actions (bot.js lines 844-858)

`db.users` is a map from Telegram id to `{ balance, is_whitelisted }`.
The confirm action credits the target user's balance by the amount baked
into the callback data, after an admin-or-owner permission check, with no
idempotency guard of any kind. -/

structure UserAcc where
  balance : ℚ
  is_whitelisted : Bool
deriving DecidableEq

/-- The user table `db.users`. -/
def Users := Nat → Option UserAcc

/-- Assignment `db.users[uid] = u`. -/
def updateUser (users : Users) (uid : Nat) (u : UserAcc) : Users :=
  fun j => if j = uid then some u else users j

/-- The balance the confirm handler works with:
`db.users[userId] = db.users[userId] || { balance: 0, ... }`. -/
def balOf (users : Users) (uid : Nat) : ℚ :=
  ((users uid).getD { balance := 0, is_whitelisted := true }).balance

/-- The `recharge_confirm_<uid>_<amount>` callback handler. Returns the
updated user table and, when the decision was honored, the id of the
party notified of the successful recharge (`none` when permission was
denied and nothing changed). -/
def rechargeConfirm (admins : List Nat) (owner fromId uid amount : Nat)
    (users : Users) : Users × Option Nat :=
  if !(admins.contains fromId) && !(fromId == owner) then (users, none)
  else
    let u := (users uid).getD { balance := 0, is_whitelisted := true }
    (updateUser users uid { u with balance := u.balance + amount }, some uid)

/-- C3: a recharge confirm decision is honored only for operator or admin
identities (any other caller leaves every balance unchanged and notifies
nobody); each honored confirm credits the target party's balance by
exactly the escalated amount and notifies that party; and because there
is no idempotency guard, honoring the same confirm twice credits the
party twice. -/
theorem recharge_confirm_double_credit (admins : List Nat)
    (owner fromId uid amount : Nat) (users : Users) :
    (¬ (fromId ∈ admins ∨ fromId = owner) →
      rechargeConfirm admins owner fromId uid amount users = (users, none)) ∧
    ((fromId ∈ admins ∨ fromId = owner) →
      (rechargeConfirm admins owner fromId uid amount users).2 = some uid ∧
      balOf (rechargeConfirm admins owner fromId uid amount users).1 uid
        = balOf users uid + amount ∧
      balOf (rechargeConfirm admins owner fromId uid amount
          (rechargeConfirm admins owner fromId uid amount users).1).1 uid
        = balOf users uid + amount + amount) := by
  constructor
  · intro hno
    have h1 : admins.contains fromId = false := by
      rw [Bool.eq_false_iff]
      intro h
      exact hno (Or.inl (List.elem_iff.mp h))
    have h2 : (fromId == owner) = false := by
      simp only [beq_eq_false_iff_ne, ne_eq]
      exact fun h => hno (Or.inr h)
    unfold rechargeConfirm
    rw [if_pos (by rw [h1, h2]; rfl)]
  · intro hyes
    have hcond : (!(admins.contains fromId) && !(fromId == owner)) = false := by
      rcases hyes with h | h
      · have : admins.contains fromId = true := List.elem_iff.mpr h
        rw [this]
        rfl
      · have : (fromId == owner) = true := by simpa using h
        rw [this]
        simp
    have hstep : ∀ us : Users,
        rechargeConfirm admins owner fromId uid amount us
          = (updateUser us uid
              { (us uid).getD { balance := 0, is_whitelisted := true } with
                balance := balOf us uid + amount }, some uid) := by
      intro us
      unfold rechargeConfirm
      rw [if_neg (by rw [hcond]; simp)]
      rfl
    have hbal : ∀ us : Users,
        balOf (rechargeConfirm admins owner fromId uid amount us).1 uid
          = balOf us uid + amount := by
      intro us
      rw [hstep us]
      unfold balOf updateUser
      simp
    refine ⟨by rw [hstep users], hbal users, ?_⟩
    rw [hbal _, hbal users]

/-- C3, witness: admin 5 confirms a 2000 recharge for party 9, twice;
also the denial case for a stranger (id 3). -/
theorem recharge_confirm_double_credit_witness :
    (rechargeConfirm [5] 1 3 9 2000 (fun _ => none) = (fun _ => none, none)) ∧
    (rechargeConfirm [5] 1 5 9 2000 (fun _ => none)).2 = some 9 ∧
    balOf (rechargeConfirm [5] 1 5 9 2000 (fun _ => none)).1 9
      = balOf (fun _ => none) 9 + 2000 ∧
    balOf (rechargeConfirm [5] 1 5 9 2000
        (rechargeConfirm [5] 1 5 9 2000 (fun _ => none)).1).1 9
      = balOf (fun _ => none) 9 + 2000 + 2000 :=
  ⟨(recharge_confirm_double_credit [5] 1 3 9 2000 (fun _ => none)).1
      (by simp),
    (recharge_confirm_double_credit [5] 1 5 9 2000 (fun _ => none)).2
      (Or.inl (by simp))⟩

/-! ## The recharge session flow (bot.js lines 805-841)

`rechargeSessions[id]` holds `{ step: 1 }` after `/recharge` and
`{ step: 2, amount }` once an allowed amount was received. The
`bot.on('message')` handler drives the per-party session. -/

/-- A recharge session: step 1 awaits the amount, step 2 awaits the
payment proof and carries the chosen amount. -/
inductive RState
  | step1
  | step2 (amount : Nat)
deriving DecidableEq

/-- The session table `rechargeSessions`. -/
def Sessions := Nat → Option RState

/-- An inbound message as the handler sees it: optional text and whether
a photo attachment is present (`ctx.message.photo`). -/
structure Msg where
  text : Option (List Char)
  photo : Bool

/-- What the handler sends back, one constructor per code path. `silent`
is the handler returning without replying at all. -/
inductive ROut
  | silent
  | replyInvalidNumber           -- 'Please send a valid number'
  | replyNotAllowed              -- 'Allowed amounts are ... only.'
  | replyAskProof                -- payment info, 'Send payment screenshot'
  | escalate (adminId uid amount : Nat)
      -- proof photo forwarded to the admin with confirm/failed actions,
      -- 'proof sent' acknowledgement to the party
deriving DecidableEq

/-- The fixed allow-list of denominations (bot.js line 824). -/
def allowedAmounts : List Nat := [500, 1000, 2000, 5000, 10000]

/-- The `bot.on('message')` recharge handler (bot.js lines 816-841).
Returns the updated session table and the outbound action. -/
def onMessage (owner : Nat) (sessions : Sessions) (fromId : Nat)
    (m : Msg) : Sessions × ROut :=
  match sessions fromId with
  | none => (sessions, .silent)
  | some RState.step1 =>
    match m.text with
    | none => (sessions, .replyInvalidNumber)
    | some t =>
      if t = [] || !(t.all Char.isDigit) then (sessions, .replyInvalidNumber)
      else
        let amount := natOfDigits t
        if !(allowedAmounts.contains amount) then (sessions, .replyNotAllowed)
        else
          (fun j => if j = fromId then some (RState.step2 amount)
            else sessions j, .replyAskProof)
  | some (RState.step2 amount) =>
    if m.photo then
      (fun j => if j = fromId then none else sessions j,
        .escalate owner fromId amount)
    else (sessions, .silent)

/-- C4, counterexample. A party whose session awaits the payment proof
sends a plain text message: the claim says it is rejected with a
re-prompt, but the handler falls through both branches and sends nothing
at all — the session is unchanged and the outbound action is `silent`,
not a reply. -/
theorem awaiting_proof_text_silent_counterexample :
    (onMessage 1 (fun j => if j = 7 then some (RState.step2 2000) else none)
      7 { text := some ("hello".toList), photo := false })
      = (fun j => if j = 7 then some (RState.step2 2000) else none,
          ROut.silent) ∧
    ROut.silent ≠ ROut.replyInvalidNumber ∧
    ROut.silent ≠ ROut.replyNotAllowed ∧
    ROut.silent ≠ ROut.replyAskProof := by
  refine ⟨?_, by decide, by decide, by decide⟩
  rfl

/-- C4 (amended): for every recharge session — while awaiting the amount,
a text message that is not a positive integer in the fixed allow-list of
denominations leaves the session table unchanged with a re-prompt, and
an allowed amount records that amount and advances the session to
awaiting-proof; while awaiting proof, an image attachment destroys the
session and forwards a review request (amount, party, proof image) with
two decision actions to the admin/operator, and a non-image message is
silently ignored — no reply is sent — leaving the state unchanged. -/
theorem recharge_session_transitions (owner : Nat) (sessions : Sessions)
    (fromId : Nat) (m : Msg) :
    (sessions fromId = some RState.step1 → ∀ t, m.text = some t →
      (t = [] ∨ ¬ t.all Char.isDigit = true) →
      onMessage owner sessions fromId m
        = (sessions, .replyInvalidNumber)) ∧
    (sessions fromId = some RState.step1 → ∀ t, m.text = some t →
      t ≠ [] → t.all Char.isDigit = true →
      allowedAmounts.contains (natOfDigits t) = false →
      onMessage owner sessions fromId m = (sessions, .replyNotAllowed)) ∧
    (sessions fromId = some RState.step1 → ∀ t, m.text = some t →
      t ≠ [] → t.all Char.isDigit = true →
      allowedAmounts.contains (natOfDigits t) = true →
      (onMessage owner sessions fromId m).1 fromId
          = some (RState.step2 (natOfDigits t)) ∧
      (∀ j, j ≠ fromId →
        (onMessage owner sessions fromId m).1 j = sessions j) ∧
      (onMessage owner sessions fromId m).2 = .replyAskProof) ∧
    (∀ amount, sessions fromId = some (RState.step2 amount) →
      m.photo = true →
      (onMessage owner sessions fromId m).1 fromId = none ∧
      (∀ j, j ≠ fromId →
        (onMessage owner sessions fromId m).1 j = sessions j) ∧
      (onMessage owner sessions fromId m).2
        = .escalate owner fromId amount) ∧
    (∀ amount, sessions fromId = some (RState.step2 amount) →
      m.photo = false →
      onMessage owner sessions fromId m = (sessions, .silent)) := by
  refine ⟨?_, ?_, ?_, ?_, ?_⟩
  · intro hs t ht hbad
    have hcond : (decide (t = []) || !(t.all Char.isDigit)) = true := by
      rcases hbad with rfl | hnd
      · simp
      · have hf : t.all Char.isDigit = false := by
          cases h : t.all Char.isDigit
          · rfl
          · exact absurd h hnd
        simp [hf]
    simp [onMessage, hs, ht, hcond]
  · intro hs t ht hne hdig hnal
    have hcond1 : (decide (t = []) || !(t.all Char.isDigit)) = false := by
      simp [hne, hdig]
    have hmem : natOfDigits t ∉ allowedAmounts := by
      intro h
      have hc : allowedAmounts.contains (natOfDigits t) = true :=
        List.elem_iff.mpr h
      rw [hc] at hnal
      cases hnal
    simp [onMessage, hs, ht, hcond1, hmem]
  · intro hs t ht hne hdig hal
    have hcond1 : (decide (t = []) || !(t.all Char.isDigit)) = false := by
      simp [hne, hdig]
    have hmem : natOfDigits t ∈ allowedAmounts := List.elem_iff.mp hal
    have heq : onMessage owner sessions fromId m
        = (fun j => if j = fromId then some (RState.step2 (natOfDigits t))
            else sessions j, .replyAskProof) := by
      simp [onMessage, hs, ht, hcond1, hmem]
    rw [heq]
    refine ⟨by simp, fun j hj => by simp [hj], rfl⟩
  · intro amount hs hph
    have heq : onMessage owner sessions fromId m
        = (fun j => if j = fromId then none else sessions j,
            .escalate owner fromId amount) := by
      simp [onMessage, hs, hph]
    rw [heq]
    refine ⟨by simp, fun j hj => by simp [hj], rfl⟩
  · intro amount hs hph
    simp [onMessage, hs, hph]

/-- C4, witness: a full concrete walk — an out-of-list amount (300) is
re-prompted with the state unchanged, the allowed amount 2000 advances
the session, a photo escalates with amount and party attached, and a
text while awaiting proof is silently ignored. -/
theorem recharge_session_transitions_witness :
    (onMessage 1 (fun j => if j = 7 then some RState.step1 else none) 7
        { text := some ("300".toList), photo := false })
      = (fun j => if j = 7 then some RState.step1 else none,
          .replyNotAllowed) ∧
    ((onMessage 1 (fun j => if j = 7 then some RState.step1 else none) 7
        { text := some ("2000".toList), photo := false }).1 7
      = some (RState.step2 2000) ∧
     (onMessage 1 (fun j => if j = 7 then some RState.step1 else none) 7
        { text := some ("2000".toList), photo := false }).2
      = .replyAskProof) ∧
    ((onMessage 1 (fun j => if j = 7 then some (RState.step2 2000) else none)
        7 { text := none, photo := true }).1 7 = none ∧
     (onMessage 1 (fun j => if j = 7 then some (RState.step2 2000) else none)
        7 { text := none, photo := true }).2 = .escalate 1 7 2000) ∧
    (onMessage 1 (fun j => if j = 7 then some (RState.step2 2000) else none)
        7 { text := some ("hi".toList), photo := false })
      = (fun j => if j = 7 then some (RState.step2 2000) else none,
          .silent) :=
  ⟨(recharge_session_transitions 1
      (fun j => if j = 7 then some RState.step1 else none) 7
      { text := some ("300".toList), photo := false }).2.1
      (by simp) ("300".toList) rfl (by decide) (by decide) (by decide),
    ⟨((recharge_session_transitions 1
        (fun j => if j = 7 then some RState.step1 else none) 7
        { text := some ("2000".toList), photo := false }).2.2.1
        (by simp) ("2000".toList) rfl (by decide) (by decide) (by decide)).1,
      ((recharge_session_transitions 1
        (fun j => if j = 7 then some RState.step1 else none) 7
        { text := some ("2000".toList), photo := false }).2.2.1
        (by simp) ("2000".toList) rfl (by decide) (by decide)
        (by decide)).2.2⟩,
    ⟨((recharge_session_transitions 1
        (fun j => if j = 7 then some (RState.step2 2000) else none) 7
        { text := none, photo := true }).2.2.2.1 2000 (by simp) rfl).1,
      ((recharge_session_transitions 1
        (fun j => if j = 7 then some (RState.step2 2000) else none) 7
        { text := none, photo := true }).2.2.2.1 2000 (by simp) rfl).2.2⟩,
    (recharge_session_transitions 1
      (fun j => if j = 7 then some (RState.step2 2000) else none) 7
      { text := some ("hi".toList), photo := false }).2.2.2.2 2000
      (by simp) rfl⟩

/-! ## The group authority gate (bot.js lines 560-572 and 705-708)

`getGroupOwnerId` asks the transport for the chat's administrators and
returns the creator's id (`null` outside groups, on errors, or when no
creator is found). `groupOwnerOnly(ctx, next)` runs `next` only when that
id strictly equals the caller's id — there is no operator bypass in the
gate itself. The `/add` handler first ignores non-group chats and then
wraps its whole body in `groupOwnerOnly`. -/

inductive ChatType
  | privateChat
  | group
  | supergroup
  | channel
deriving DecidableEq

/-- `ctx.chat.type` is `group` or `supergroup`. -/
def isGroupChat : ChatType → Bool
  | .group => true
  | .supergroup => true
  | _ => false

/-- `getGroupOwnerId` (bot.js lines 560-567): `creator` is the transport's
answer — `none` models both a lookup error and a missing creator. -/
def getGroupOwnerId (chatType : ChatType) (creator : Option Nat) :
    Option Nat :=
  match chatType with
  | .group => creator
  | .supergroup => creator
  | _ => none

/-- `groupOwnerOnly` (bot.js lines 569-572): run the continuation only
for the group's creator; otherwise do nothing — no reply, no mutation
(`(st, none)` returns the state unchanged with no outbound reply). -/
def groupOwnerOnly {σ ρ : Type} (chatType : ChatType)
    (creator : Option Nat) (fromId : Nat) (next : σ → σ × Option ρ)
    (st : σ) : σ × Option ρ :=
  if getGroupOwnerId chatType creator = some fromId then next st
  else (st, none)

/-- The `/add` entry of variant 2 (bot.js lines 705-708): ignore non-group
chats, then gate the body behind `groupOwnerOnly`. -/
def addCommandGate {σ ρ : Type} (chatType : ChatType)
    (creator : Option Nat) (fromId : Nat) (body : σ → σ × Option ρ)
    (st : σ) : σ × Option ρ :=
  if !(isGroupChat chatType) then (st, none)
  else groupOwnerOnly chatType creator fromId body st

/-- C7, counterexample. Let the configured operator be id 1 and the
group's creator id 2. The operator's ordering command is silently
ignored — the body never runs, the state is unchanged and no reply is
sent — refuting the claim that the operator always passes the authority
gate (the gate admits only the creator; the operator id is not even an
input of the gate). -/
theorem operator_blocked_by_group_gate_counterexample :
    addCommandGate ChatType.group (some 2) 1
        (fun s : Nat => (s + 1, some 42)) 0 = (0, none) ∧
    (fun s : Nat => (s + 1, some 42)) 0 ≠ ((0 : Nat), (none : Option Nat)) :=
  ⟨rfl, by decide⟩

/-- C7 (amended): in a group context an ordering command from any caller
who is not the group's creator — including the operator — produces no
reply and no state mutation (silent ignore); outside group chats nothing
runs either; and the gate runs the command body exactly when the caller
is the group's creator. -/
theorem group_gate_admits_exactly_creator {σ ρ : Type}
    (chatType : ChatType) (creator : Option Nat) (fromId : Nat)
    (body : σ → σ × Option ρ) (st : σ) :
    (isGroupChat chatType = false →
      addCommandGate chatType creator fromId body st = (st, none)) ∧
    (getGroupOwnerId chatType creator ≠ some fromId →
      addCommandGate chatType creator fromId body st = (st, none)) ∧
    (isGroupChat chatType = true →
      getGroupOwnerId chatType creator = some fromId →
      addCommandGate chatType creator fromId body st = body st) := by
  refine ⟨?_, ?_, ?_⟩
  · intro hng
    unfold addCommandGate
    rw [if_pos (by rw [hng]; rfl)]
  · intro hnc
    unfold addCommandGate
    by_cases hg : isGroupChat chatType
    · rw [if_neg (by rw [hg]; simp)]
      unfold groupOwnerOnly
      rw [if_neg hnc]
    · rw [if_pos (by
        rw [(Bool.not_eq_true _).mp hg]
        rfl)]
  · intro hg hc
    unfold addCommandGate
    rw [if_neg (by rw [hg]; simp)]
    unfold groupOwnerOnly
    rw [if_pos hc]

/-- C7, witness: the creator (id 2) passes the gate and the command body
runs; a private chat is ignored. -/
theorem group_gate_admits_exactly_creator_witness :
    addCommandGate ChatType.group (some 2) 2
        (fun s : Nat => (s + 1, some 42)) 0 = (1, some 42) ∧
    addCommandGate ChatType.privateChat (some 2) 2
        (fun s : Nat => (s + 1, some 42)) 0 = (0, none) :=
  ⟨(group_gate_admits_exactly_creator ChatType.group (some 2) 2
      (fun s : Nat => (s + 1, some 42)) 0).2.2 rfl rfl,
    (group_gate_admits_exactly_creator ChatType.privateChat (some 2) 2
      (fun s : Nat => (s + 1, some 42)) 0).1 rfl⟩

end Sunflower
